import Mathlib

/-!
Verification development for the comunica streaming query-operation and join
pipeline.  The definitions below are shallow embeddings of the TypeScript
source files:

* `packages/bus-rdf-join/lib/ActorRdfJoin.ts` (join merging, test, run);
* the Slice query-operation actor (`sliceStream`, `sliceMetadata`);
* the native HTTP actor (`ActorHttpNative.run`);
* `packages/runner/lib/Runner.ts` (`Runner.run`).

Asynchronous streams are materialized as lists; promised metadata objects are
materialized as resolved association lists.
-/

set_option maxHeartbeats 1000000

namespace Comunica

/-- An RDF term (rdf-js). `Term.equals` in rdf-js is structural equality,
which the derived `DecidableEq` mirrors. -/
inductive Term where
  | namedNode (iri : String)
  | blankNode (label : String)
  | literal (lex : String) (datatype : String) (language : Option String)
  | defaultGraph
  | var (name : String)
deriving DecidableEq, Repr

abbrev Var := String

/-- A solution mapping (immutable.js `Map<string, Term>` in the source),
embedded as an association list whose keys are unique. -/
abbrev Bindings := List (Var × Term)

/-- Association-list lookup, first occurrence wins (mirrors `Map.get`). -/
def alookup {β : Type _} (k : String) : List (String × β) → Option β
  | [] => none
  | (k1, v) :: rest => if k1 = k then some v else alookup k rest

/-- The key-uniqueness invariant of a `Bindings` or metadata object. -/
def keysNodup {β : Type _} (l : List (String × β)) : Prop :=
  (l.map Prod.fst).Nodup

instance {β : Type _} (l : List (String × β)) : Decidable (keysNodup l) := by
  unfold keysNodup; infer_instance

/-- `acc.mergeWith(f, val)` as used inside `ActorRdfJoin.join`: fold the
entries of `val` into `acc`; a key present on both sides keeps the left term
when the two terms are equal, and the whole merge fails (the source throws
`Join failure`) when they differ. -/
def joinMerge (m : Bindings) : Bindings → Option Bindings
  | [] => some m
  | (k, v) :: rest =>
    match alookup k m with
    | some t => if t = v then joinMerge m rest else none
    | none => joinMerge (m ++ [(k, v)]) rest

/-- `ActorRdfJoin.join(...bindings)`: a reduce of `mergeWith` over the
argument list; the thrown merge error is caught and surfaced as `null`
(`none`).  A JS `reduce` without a seed on an empty array also throws,
which the catch turns into `null` as well. -/
def join : List Bindings → Option Bindings
  | [] => none
  | b :: rest => rest.foldlM joinMerge b

/-- Spec notion: two bindings are compatible iff every variable bound on
both sides is mapped to equal terms. -/
def compatB (a b : Bindings) : Bool :=
  a.all fun kv =>
    match alookup kv.1 b with
    | some u => decide (kv.2 = u)
    | none => true

theorem alookup_append {β : Type _} (k : String) (l1 l2 : List (String × β)) :
    alookup k (l1 ++ l2) = (alookup k l1).or (alookup k l2) := by
  induction l1 with
  | nil => simp [alookup]
  | cons kv rest ih =>
    obtain ⟨k1, v⟩ := kv
    by_cases h : k1 = k <;> simp [alookup, h, ih]

theorem alookup_eq_none_iff {β : Type _} (k : String) (l : List (String × β)) :
    alookup k l = none ↔ k ∉ l.map Prod.fst := by
  induction l with
  | nil => simp [alookup]
  | cons kv rest ih =>
    obtain ⟨k1, v⟩ := kv
    by_cases h : k1 = k
    · subst h
      simp [alookup]
    · simp only [alookup, if_neg h, List.map_cons, List.mem_cons, ih]
      constructor
      · intro hn
        rintro (he | he)
        · exact h he.symm
        · exact hn he
      · intro hn he
        exact hn (Or.inr he)

theorem alookup_mem {β : Type _} {k : String} {v : β} {l : List (String × β)}
    (h : alookup k l = some v) : (k, v) ∈ l := by
  induction l with
  | nil => simp [alookup] at h
  | cons kv rest ih =>
    obtain ⟨k1, v1⟩ := kv
    by_cases h1 : k1 = k
    · subst h1; simp [alookup] at h; simp [h]
    · simp [alookup, h1] at h
      exact List.mem_cons_of_mem _ (ih h)

theorem keysNodup_cons {β : Type _} {k : String} {v : β} {l : List (String × β)} :
    keysNodup ((k, v) :: l) ↔ k ∉ l.map Prod.fst ∧ keysNodup l := by
  simp [keysNodup]

theorem mem_alookup {β : Type _} {k : String} {v : β} {l : List (String × β)}
    (hl : keysNodup l) (h : (k, v) ∈ l) : alookup k l = some v := by
  induction l with
  | nil => simp at h
  | cons kv rest ih =>
    obtain ⟨k1, v1⟩ := kv
    rw [keysNodup_cons] at hl
    rcases List.mem_cons.mp h with h | h
    · cases h
      simp [alookup]
    · have hk : ¬k1 = k := by
        intro he; subst he
        exact hl.1 (List.mem_map.mpr ⟨(k1, v), h, rfl⟩)
      rw [alookup, if_neg hk]
      exact ih hl.2 h

theorem list_all_congr {α : Type _} {p q : α → Bool} {l : List α}
    (h : ∀ x ∈ l, p x = q x) : l.all p = l.all q := by
  induction l with
  | nil => rfl
  | cons x rest ih =>
    simp only [List.all_cons, h x (List.mem_cons_self x rest),
      ih fun y hy => h y (List.mem_cons_of_mem x hy)]

/-- Characterization of the merge fold: on a right operand with unique keys,
`joinMerge m b` succeeds iff every entry of `b` whose key is bound in `m`
agrees with the value in `m`, and the result appends the genuinely new
entries of `b` to `m`. -/
theorem joinMerge_eq (b : Bindings) : ∀ m : Bindings, keysNodup b →
    joinMerge m b =
      if compatB b m then some (m ++ b.filter fun kv => (alookup kv.1 m).isNone)
      else none := by
  induction b with
  | nil => intro m _; simp [joinMerge, compatB]
  | cons kv rest ih =>
    intro m hb
    obtain ⟨k, v⟩ := kv
    rw [keysNodup_cons] at hb
    obtain ⟨hk, hrest⟩ := hb
    cases h : alookup k m with
    | some t =>
      by_cases htv : t = v
      · subst htv
        have hstep : joinMerge m ((k, t) :: rest) = joinMerge m rest := by
          simp [joinMerge, h]
        rw [hstep, ih m hrest]
        have hc : compatB ((k, t) :: rest) m = compatB rest m := by
          simp [compatB, h, List.all_cons]
        rw [hc]
        have hf : ((k, t) :: rest).filter (fun kv => (alookup kv.1 m).isNone) =
            rest.filter (fun kv => (alookup kv.1 m).isNone) := by
          simp [List.filter_cons, h]
        rw [hf]
      · have hstep : joinMerge m ((k, v) :: rest) = none := by
          simp [joinMerge, h, htv]
        rw [hstep]
        have hc : compatB ((k, v) :: rest) m = false := by
          simp [compatB, List.all_cons, h]
          intro he
          exact absurd he.symm htv
        rw [hc, if_neg (by simp)]
    | none =>
      have hstep : joinMerge m ((k, v) :: rest) = joinMerge (m ++ [(k, v)]) rest := by
        simp [joinMerge, h]
      rw [hstep, ih (m ++ [(k, v)]) hrest]
      have hlook : ∀ kv1 ∈ rest, alookup kv1.1 (m ++ [(k, v)]) = alookup kv1.1 m := by
        intro kv1 hmem
        rw [alookup_append]
        have hne : ¬k = kv1.1 := by
          intro he
          exact hk (List.mem_map.mpr ⟨kv1, hmem, he.symm⟩)
        simp [alookup, hne]
      have hc : compatB rest (m ++ [(k, v)]) = compatB ((k, v) :: rest) m := by
        have h1 : compatB ((k, v) :: rest) m = compatB rest m := by
          simp [compatB, List.all_cons, h]
        rw [h1]
        unfold compatB
        apply list_all_congr
        intro kv1 hmem
        rw [hlook kv1 hmem]
      rw [hc]
      have hfil : rest.filter (fun kv => (alookup kv.1 (m ++ [(k, v)])).isNone) =
          rest.filter (fun kv => (alookup kv.1 m).isNone) := by
        apply List.filter_congr
        intro kv1 hmem
        rw [hlook kv1 hmem]
      rw [hfil]
      have happ : m ++ [(k, v)] ++ rest.filter (fun kv => (alookup kv.1 m).isNone) =
          m ++ ((k, v) :: rest).filter (fun kv => (alookup kv.1 m).isNone) := by
        rw [List.append_assoc]
        simp [List.filter_cons, h]
      rw [happ]

theorem alookup_filter_key {β : Type _} (p : String → Bool) (k : String)
    (l : List (String × β)) :
    alookup k (l.filter fun kv => p kv.1) = if p k then alookup k l else none := by
  induction l with
  | nil => simp [alookup]
  | cons kv rest ih =>
    obtain ⟨k1, v⟩ := kv
    by_cases hp : p k1
    · by_cases hk : k1 = k
      · subst hk
        simp [List.filter_cons, hp, alookup]
      · simp [List.filter_cons, hp, alookup, hk, ih]
    · by_cases hk : k1 = k
      · subst hk
        simp only [List.filter_cons]
        rw [if_neg (by simp [hp])]
        rw [ih, alookup]
        simp [hp]
      · simp only [List.filter_cons]
        rw [if_neg (by simp [hp])]
        rw [ih, alookup, if_neg hk]

theorem joinMerge_isSome {m b : Bindings} (hb : keysNodup b) :
    (joinMerge m b).isSome = compatB b m := by
  rw [joinMerge_eq b m hb]
  by_cases h : compatB b m <;> simp [h]

theorem joinMerge_some_lookup {m b r : Bindings} (hb : keysNodup b)
    (h : joinMerge m b = some r) (k : Var) :
    alookup k r = (alookup k m).or (alookup k b) := by
  rw [joinMerge_eq b m hb] at h
  by_cases hc : compatB b m
  · rw [if_pos hc, Option.some_inj] at h
    subst h
    rw [alookup_append, alookup_filter_key (fun s => (alookup s m).isNone) k b]
    cases hm : alookup k m with
    | some t => simp [hm]
    | none => simp [hm]
  · rw [if_neg hc] at h
    exact absurd h (by simp)

theorem joinMerge_keysNodup {m b r : Bindings} (hm : keysNodup m) (hb : keysNodup b)
    (h : joinMerge m b = some r) : keysNodup r := by
  rw [joinMerge_eq b m hb] at h
  by_cases hc : compatB b m
  · rw [if_pos hc, Option.some_inj] at h
    subst h
    rw [keysNodup, List.map_append, List.nodup_append]
    refine ⟨hm, ?_, ?_⟩
    · exact ((List.filter_sublist b).map Prod.fst).nodup hb
    · intro x hxm hxf
      obtain ⟨kv, hkv, hx⟩ := List.mem_map.mp hxf
      have hmem := List.mem_filter.mp hkv
      have : alookup kv.1 m = none := by
        cases hl : alookup kv.1 m
        · rfl
        · rw [hl] at hmem; simp at hmem
      rw [hx] at this
      exact (alookup_eq_none_iff x m).mp this hxm
  · rw [if_neg hc] at h
    exact absurd h (by simp)

theorem compatB_iff {a b : Bindings} (ha : keysNodup a) :
    compatB a b = true ↔
      ∀ k t u, alookup k a = some t → alookup k b = some u → t = u := by
  unfold compatB
  rw [List.all_eq_true]
  constructor
  · intro h k t u hat hbu
    have hm := alookup_mem hat
    have := h (k, t) hm
    rw [hbu] at this
    simpa using this
  · intro h kv hmem
    have hak := mem_alookup ha hmem
    cases hb : alookup kv.1 b with
    | some u => simpa using h kv.1 kv.2 u hak hb
    | none => simp

theorem compatB_symm {a b : Bindings} (ha : keysNodup a) (hb : keysNodup b) :
    compatB a b = compatB b a := by
  by_cases h : compatB a b = true
  · rw [h]
    have hp := (compatB_iff ha).mp h
    exact ((compatB_iff hb).mpr fun k t u hbt hau => (hp k u t hau hbt).symm).symm
  · rw [Bool.not_eq_true] at h
    rw [h]
    by_cases h2 : compatB b a = true
    · have hp := (compatB_iff hb).mp h2
      have : compatB a b = true :=
        (compatB_iff ha).mpr fun k t u hat hbu => (hp k u t hbu hat).symm
      rw [this] at h
      exact absurd h (by simp)
    · rw [Bool.not_eq_true] at h2
      rw [h2]

theorem join_pair (a b : Bindings) : join [a, b] = joinMerge a b := by
  simp [join, List.foldlM]

theorem count_coe_of_keysNodup {β : Type _} [DecidableEq β] {l : List (String × β)}
    (hl : keysNodup l) (k : String) (v : β) :
    Multiset.count (k, v) (l : Multiset (String × β)) =
      if alookup k l = some v then 1 else 0 := by
  induction l with
  | nil => simp [alookup]
  | cons kv rest ih =>
    obtain ⟨k1, v1⟩ := kv
    rw [keysNodup_cons] at hl
    rw [← Multiset.cons_coe, Multiset.count_cons]
    by_cases hk : k1 = k
    · subst hk
      have hrest : alookup k1 rest = none := (alookup_eq_none_iff k1 rest).mpr hl.1
      by_cases hv : v = v1
      · subst hv
        simp [alookup, ih hl.2, hrest]
      · rw [ih hl.2, hrest]
        have e1 : ¬((k1, v) = (k1, v1)) := fun h => hv (congrArg Prod.snd h)
        have e2 : ¬(v1 = v) := fun h => hv h.symm
        simp [alookup, e1, e2]
    · have : ((k, v) = (k1, v1)) = False := by
        simp [Prod.ext_iff]
        intro h
        exact absurd h.symm hk
      simp only [this, if_false]
      rw [alookup, if_neg hk, ih hl.2]
      simp

theorem coe_eq_coe_of_alookup_eq {β : Type _} [DecidableEq β]
    {l1 l2 : List (String × β)} (h1 : keysNodup l1) (h2 : keysNodup l2)
    (h : ∀ k, alookup k l1 = alookup k l2) :
    (l1 : Multiset (String × β)) = (l2 : Multiset (String × β)) := by
  rw [Multiset.ext]
  rintro ⟨k, v⟩
  rw [count_coe_of_keysNodup h1, count_coe_of_keysNodup h2, h k]

/-- A bindings value seen as the multiset of its (variable, term) entries;
with unique keys this is the same information as the finite mapping. -/
def bindingsMS (b : Bindings) : Multiset (Var × Term) := (b : Multiset (Var × Term))

/-- The contribution of one (left, right) pair to a nested-loop join output:
one merged bindings when the merge succeeds, nothing otherwise. -/
def pairMS (a b : Bindings) : Multiset (Multiset (Var × Term)) :=
  match joinMerge a b with
  | some r => {bindingsMS r}
  | none => 0

theorem pairMS_comm {a b : Bindings} (ha : keysNodup a) (hb : keysNodup b) :
    pairMS a b = pairMS b a := by
  have hs : (joinMerge a b).isSome = (joinMerge b a).isSome := by
    rw [joinMerge_isSome hb, joinMerge_isSome ha, compatB_symm hb ha]
  cases h1 : joinMerge a b with
  | none =>
    cases h2 : joinMerge b a with
    | none => simp only [pairMS, h1, h2]
    | some r2 => rw [h1, h2] at hs; simp at hs
  | some r1 =>
    cases h2 : joinMerge b a with
    | none => rw [h1, h2] at hs; simp at hs
    | some r2 =>
      have hcompat : compatB b a = true := by
        have := joinMerge_isSome (m := a) hb
        rw [h1] at this
        simpa using this.symm
      have hp := (compatB_iff hb).mp hcompat
      have hlook : ∀ k, alookup k r1 = alookup k r2 := by
        intro k
        rw [joinMerge_some_lookup hb h1 k, joinMerge_some_lookup ha h2 k]
        cases hka : alookup k a with
        | some t =>
          cases hkb : alookup k b with
          | some u => simp [Option.or]; exact (hp k u t hkb hka).symm
          | none => simp [Option.or]
        | none =>
          cases hkb : alookup k b with
          | some u => simp [Option.or]
          | none => simp [Option.or]
      have hn1 := joinMerge_keysNodup ha hb h1
      have hn2 := joinMerge_keysNodup hb ha h2
      simp only [pairMS, h1, h2]
      rw [show bindingsMS r1 = bindingsMS r2 from
        coe_eq_coe_of_alookup_eq hn1 hn2 hlook]

/-- Modelled from the spec: the concrete join actors are not under src (only
the abstract `ActorRdfJoin` is), so the nested-loop actor of §4.3 is taken
from its one-line contract: "for each left bindings, iterate the right;
emit merged compatibles".  Streams are materialized as lists. -/
def nestedLoopJoin (A B : List Bindings) : List Bindings :=
  A.foldr (fun a acc => B.filterMap (fun b => joinMerge a b) ++ acc) []

theorem listSum_map_zero {M α : Type _} [AddCommMonoid M] (l : List α) :
    (l.map fun _ => (0 : M)).sum = 0 := by
  induction l with
  | nil => rfl
  | cons x rest ih => simp [ih]

theorem listSum_map_add {M α : Type _} [AddCommMonoid M] (l : List α)
    (f g : α → M) :
    (l.map fun x => f x + g x).sum = (l.map f).sum + (l.map g).sum := by
  induction l with
  | nil => simp
  | cons x rest ih =>
    simp only [List.map_cons, List.sum_cons, ih]
    abel

theorem listSum_comm {M α β : Type _} [AddCommMonoid M] (A : List α) (B : List β)
    (f : α → β → M) :
    (A.map fun a => (B.map fun b => f a b).sum).sum =
      (B.map fun b => (A.map fun a => f a b).sum).sum := by
  induction A with
  | nil => simp [listSum_map_zero]
  | cons a A ih =>
    simp only [List.map_cons, List.sum_cons, ih]
    rw [← listSum_map_add]

theorem nestedLoop_inner_ms (a : Bindings) (B : List Bindings) :
    Multiset.map bindingsMS (↑(B.filterMap fun b => joinMerge a b)) =
      (B.map (pairMS a)).sum := by
  induction B with
  | nil => simp
  | cons b rest ih =>
    rw [List.filterMap_cons]
    cases h : joinMerge a b with
    | none =>
      simp only [List.map_cons, List.sum_cons, pairMS, h, ih, zero_add]
    | some r =>
      rw [← Multiset.cons_coe, Multiset.map_cons]
      simp only [List.map_cons, List.sum_cons, pairMS, h, ih]
      rw [← Multiset.singleton_add]

theorem nestedLoop_ms (A B : List Bindings) :
    Multiset.map bindingsMS (↑(nestedLoopJoin A B)) =
      (A.map fun a => (B.map (pairMS a)).sum).sum := by
  induction A with
  | nil => simp [nestedLoopJoin]
  | cons a A ih =>
    have hstep : nestedLoopJoin (a :: A) B =
        B.filterMap (fun b => joinMerge a b) ++ nestedLoopJoin A B := rfl
    rw [hstep, ← Multiset.coe_add, Multiset.map_add, ih, nestedLoop_inner_ms]
    simp

/-- A metadata value: a JS number (`ℕ∞` covers the finite totals and
`Infinity`), the JS `undefined`, or the JS `NaN` produced by arithmetic on
non-numbers. -/
inductive MVal where
  | num (n : ℕ∞)
  | jsUndefined
  | nan
deriving DecidableEq

/-- A resolved metadata object: an association list of numeric-or-undefined
fields (JS object keys are unique). -/
abbrev Metadata := List (String × MVal)

/-- JS property access `md[k]`: `undefined` when the key is absent. -/
def lookupVal (md : Metadata) (k : String) : MVal :=
  (alookup k md).getD .jsUndefined

/-- JS `{...md, k: v}` (and equally mutation `md[k] = v`): replace the value
in place when the key exists, append the key otherwise. -/
def upsert (md : Metadata) (k : String) (v : MVal) : Metadata :=
  if (alookup k md).isSome then
    md.map fun kv => if kv.1 = k then (k, v) else kv
  else md ++ [(k, v)]

theorem alookup_map_replace (md : Metadata) (k : String) (v : MVal) :
    alookup k (md.map fun kv => if kv.1 = k then (k, v) else kv) =
      (alookup k md).map fun _ => v := by
  induction md with
  | nil => simp [alookup]
  | cons kv rest ih =>
    obtain ⟨k1, v1⟩ := kv
    by_cases h : k1 = k
    · subst h
      rw [List.map_cons, if_pos (show (k1, v1).1 = k1 from rfl),
        alookup, alookup, if_pos rfl, if_pos rfl]
      rfl
    · rw [List.map_cons, if_neg (show ¬(k1, v1).1 = k from h),
        alookup, alookup, if_neg h, if_neg h, ih]

theorem alookup_map_replace_ne (md : Metadata) {k k1 : String} (v : MVal)
    (h : k1 ≠ k) :
    alookup k1 (md.map fun kv => if kv.1 = k then (k, v) else kv) =
      alookup k1 md := by
  induction md with
  | nil => simp [alookup]
  | cons kv rest ih =>
    obtain ⟨k2, v2⟩ := kv
    by_cases h2 : k2 = k
    · subst h2
      rw [List.map_cons, if_pos (show (k2, v2).1 = k2 from rfl),
        alookup, alookup, if_neg (Ne.symm h), if_neg (Ne.symm h), ih]
    · rw [List.map_cons, if_neg (show ¬(k2, v2).1 = k from h2)]
      by_cases h3 : k2 = k1
      · subst h3
        rw [alookup, alookup, if_pos rfl, if_pos rfl]
      · rw [alookup, alookup, if_neg h3, if_neg h3, ih]

theorem alookup_upsert_self (md : Metadata) (k : String) (v : MVal) :
    alookup k (upsert md k v) = some v := by
  unfold upsert
  by_cases h : (alookup k md).isSome
  · rw [if_pos h, alookup_map_replace]
    obtain ⟨x, hx⟩ := Option.isSome_iff_exists.mp h
    rw [hx]
    rfl
  · rw [if_neg h, alookup_append]
    rw [Option.not_isSome_iff_eq_none] at h
    rw [h]
    simp [alookup]

theorem alookup_upsert_ne (md : Metadata) {k k1 : String} (v : MVal)
    (h : k1 ≠ k) : alookup k1 (upsert md k v) = alookup k1 md := by
  unfold upsert
  by_cases hs : (alookup k md).isSome
  · rw [if_pos hs, alookup_map_replace_ne md v h]
  · rw [if_neg hs, alookup_append]
    have : alookup k1 [(k, v)] = none := by
      simp [alookup, Ne.symm h]
    rw [this]
    simp

/-- One resolved entry of a join action
(`IActorQueryOperationOutputBindings`): the runtime `type` tag, the
materialized bindings stream, the optional resolved metadata and the
variables list. -/
structure QueryOutputBindings where
  type : String
  bindingsStream : List Bindings
  metadata : Option Metadata
  vars : List String
deriving DecidableEq

/-- `IActionRdfJoin`: the list of entries to join. -/
structure JoinAction where
  entries : List QueryOutputBindings
deriving DecidableEq

/-- The output built by `ActorRdfJoin.run` for 0 entries. -/
def emptyJoinOutput : QueryOutputBindings :=
  { type := "bindings"
    bindingsStream := []
    metadata := some [("totalItems", .num 0)]
    vars := [] }

/-- `ActorRdfJoin.iteratorsHaveMetadata(action, key)`: true iff every entry
has a metadata callback and its resolved object contains `key` (a thrown
error for a missing one is caught into `false`). -/
def iteratorsHaveMetadata (action : JoinAction) (key : String) : Bool :=
  action.entries.all fun e =>
    match e.metadata with
    | some md => (alookup key md).isSome
    | none => false

/-- `entry.metadata().totalItems` as read by the `totalItems` closure of
`ActorRdfJoin.run` (`undefined` when there is no metadata). -/
def entryTI (e : QueryOutputBindings) : MVal :=
  match e.metadata with
  | some md => lookupVal md "totalItems"
  | none => .jsUndefined

/-- JS multiplication on metadata values: `Infinity * 0` and products
involving non-numbers are `NaN`. -/
def mulMV : MVal → MVal → MVal
  | .num a, .num b => if (a = ⊤ ∧ b = 0) ∨ (a = 0 ∧ b = ⊤) then .nan else .num (a * b)
  | _, _ => .nan

/-- The `totalItems` closure of `ActorRdfJoin.run`:
`metadatas.reduce((acc, val) => acc * val.totalItems, 1)`. -/
def tiProd (action : JoinAction) : MVal :=
  action.entries.foldl (fun acc e => mulMV acc (entryTI e)) (.num 1)

/-- The metadata wrapping performed by `ActorRdfJoin.run` on the subclass
output: keep an already-present `totalItems` key, fill it in with the
product otherwise, and synthesize a metadata callback when there is none. -/
def wrapMetadata (prod : MVal) (out : QueryOutputBindings) : QueryOutputBindings :=
  match out.metadata with
  | some md =>
    let md2 := if (alookup "totalItems" md).isSome then md
      else upsert md "totalItems" prod
    { out with metadata := some md2 }
  | none => { out with metadata := some [("totalItems", prod)] }

/-- `ActorRdfJoin.run`: 0 entries yield the canonical empty output, 1 entry
is returned verbatim, otherwise the abstract `getOutput` is invoked and its
metadata is enriched with the `totalItems` product when every entry has a
`totalItems`. -/
def runJoin (getOutput : JoinAction → QueryOutputBindings)
    (action : JoinAction) : QueryOutputBindings :=
  match action.entries with
  | [] => emptyJoinOutput
  | [e] => e
  | _ :: _ :: _ =>
    let result := getOutput action
    if iteratorsHaveMetadata action "totalItems" then
      wrapMetadata (tiProd action) result
    else result

/-- `ActorRdfJoin.test`: 0 iterations for at most one entry; then the
`limitEntries` cardinality check (a lower limit when `limitEntriesMin`,
an upper limit otherwise, `Infinity` by default); then the entry type
check; then `Infinity` without full metadata, else the abstract
`getIterations`. -/
def testJoin (limitEntries : ℕ∞) (limitEntriesMin : Bool)
    (getIterations : JoinAction → ℕ∞) (action : JoinAction) :
    Except String ℕ∞ :=
  if action.entries.length ≤ 1 then .ok 0
  else if (if limitEntriesMin = true then
      ((action.entries.length : ℕ∞) < limitEntries)
    else (limitEntries < (action.entries.length : ℕ∞))) then
    .error "entry limit violated"
  else if action.entries.any (fun e => e.type != "bindings") then
    .error "invalid entry type"
  else if iteratorsHaveMetadata action "totalItems" then
    .ok (getIterations action)
  else .ok ⊤

/-- `ActorQueryOperationSlice.sliceStream`: skip `start` items, then emit at
most `limit = Math.max(end - start + 1, 0)` items where
`end = start + length - 1` when a length is present and `Infinity`
otherwise.  The asynciterator `transform({offset, limit})` semantics is a
drop followed by a take.  The JS arithmetic on `end` is kept in `ℤ`. -/
def sliceStream {α : Type _} (stream : List α) (start : ℕ)
    (length : Option ℕ) : List α :=
  match length with
  | some n =>
    let e : ℤ := (start : ℤ) + (n : ℤ) - 1
    (stream.drop start).take (max (e - (start : ℤ) + 1) 0).toNat
  | none => stream.drop start

/-- `ActorQueryOperationSlice.sliceMetadata` on a resolved metadata object:
when `totalItems` is a finite number it becomes
`Math.max(0, totalItems - start)` further capped by `length` when present;
any other value (including `Infinity` and `undefined`) passes through; the
object is rebuilt with `{...subMetadata, totalItems}`. -/
def sliceMetadata (md : Metadata) (start : ℕ) (length : Option ℕ) : Metadata :=
  let t := lookupVal md "totalItems"
  let t2 : MVal :=
    match t with
    | .num n =>
      if n = ⊤ then .num n
      else
        let d : ℕ := n.toNat - start
        .num ((match length with | some l => min d l | none => d : ℕ) : ℕ∞)
    | x => x
  upsert md "totalItems" t2

/-- The metadata callback produced by `sliceMetadata` is `undefined` exactly
when the input operation exposed none. -/
def sliceMetadataO (md : Option Metadata) (start : ℕ) (length : Option ℕ) :
    Option Metadata :=
  md.map fun m => sliceMetadata m start length

/-- fetch `Headers`: a list of (lowercased) header name / value pairs. -/
structure HeadersM where
  entries : List (String × String)
deriving DecidableEq

def HeadersM.has (h : HeadersM) (k : String) : Bool :=
  (alookup k h.entries).isSome

def HeadersM.get (h : HeadersM) (k : String) : Option String :=
  alookup k h.entries

def HeadersM.append (h : HeadersM) (k v : String) : HeadersM :=
  ⟨h.entries ++ [(k, v)]⟩

/-- A fetch `Request` as read by `ActorHttpNative.run`: its `url` and its
`headers`. -/
structure RequestM where
  url : String
  headers : HeadersM
deriving DecidableEq

/-- A fetch `RequestInit` (the typed `IActionHttp.init`): optional headers
and method; `RequestInit` has no credentials or auth fields. -/
structure RequestInitM where
  headers : Option HeadersM
  method : Option String
deriving DecidableEq

/-- The two context keys `ActorHttpNative.run` reads:
`KEY_CONTEXT_INCLUDE_CREDENTIALS` (a boolean) and `KEY_CONTEXT_AUTH`
(a `user:password` string). -/
structure HttpContextM where
  includeCredentials : Bool
  auth : Option String
deriving DecidableEq

/-- `IActionHttp`: input is a `Request` or a URL string; `init` and
`context` are optional. -/
structure HttpActionM where
  input : String ⊕ RequestM
  init : Option RequestInitM
  context : Option HttpContextM
deriving DecidableEq

/-- The options object handed to the requester. -/
structure RequesterOptionsM where
  url : String
  headers : HeadersM
  method : String
  withCredentials : Bool
  auth : Option String
deriving DecidableEq

/-- The headers `ActorHttpNative.run` starts from before the user-agent
check: `new Headers(action.init.headers)` when `init` is present, the
input Request headers otherwise, and empty headers for a bare URL string. -/
def callerHeaders (action : HttpActionM) : HeadersM :=
  match action.init with
  | some init => init.headers.getD ⟨[]⟩
  | none =>
    match action.input with
    | .inr r => r.headers
    | .inl _ => ⟨[]⟩

/-- The option-building phase of `ActorHttpNative.run`: compute the url,
headers (appending the default user agent only when none is present),
method, `withCredentials` (set iff the context include-credentials flag is
truthy) and `auth` (copied from the context when truthy; the empty string
is falsy in JS). -/
def buildOptions (userAgent : String) (action : HttpActionM) :
    RequesterOptionsM :=
  let url := match action.input with
    | .inl s => s
    | .inr r => r.url
  let headers0 := callerHeaders action
  let headers1 := if headers0.has "user-agent" then headers0
    else headers0.append "user-agent" userAgent
  let method := (action.init.bind RequestInitM.method).getD "GET"
  let withCredentials := match action.context with
    | some c => c.includeCredentials
    | none => false
  let auth := match action.context with
    | some c =>
      match c.auth with
      | some a => if a = "" then none else some a
      | none => none
    | none => none
  ⟨url, headers1, method, withCredentials, auth⟩

/-- The requester response as read by the response handler of
`ActorHttpNative.run`. -/
structure HttpResponseM where
  statusCode : ℕ
  responseUrl : String
  headers : HeadersM
deriving DecidableEq

/-- The fetch-shaped fields of the resolved `IActorHttpOutput`. -/
structure FetchOutputM where
  ok : Bool
  redirected : Bool
  status : ℕ
  url : String
deriving DecidableEq

/-- The result object resolved by `ActorHttpNative.run`:
`ok = statusCode < 300`, `redirected = url changed`, and `url` is the
`content-location` header when present (`headers.has` guards the
`headers.get`, which returns exactly the stored value), the response URL
otherwise. -/
def responseToOutput (optionsUrl : String) (r : HttpResponseM) :
    FetchOutputM :=
  { ok := decide (r.statusCode < 300)
    redirected := decide (optionsUrl ≠ r.responseUrl)
    status := r.statusCode
    url := match r.headers.get "content-location" with
      | some v => v
      | none => r.responseUrl }

/-- An actor registered on the init bus, reduced to what `Runner.run`
uses: its test reply and its `runObservable`. -/
structure InitActorM (A O : Type _) where
  testReply : A → Except String ℕ
  runObservable : A → O

/-- Modelled from the spec: `Bus.publish` lives in @comunica/core, which is
not under src; §4.1 states that a bus "exposes publish(action) returning,
for each actor, its pending test reply". -/
def busPublish {A O : Type _} (actors : List (InitActorM A O)) (action : A) :
    List (InitActorM A O × Except String ℕ) :=
  actors.map fun a => (a, a.testReply action)

/-- `Runner.run`: awaits the array of reply records returned by
`busInit.publish` (the records themselves, not the embedded test promises,
so failed tests are not filtered out) and runs `runObservable` on every
replying actor, resolving with the list of all outputs. -/
def runnerRun {A O : Type _} (busInit : List (InitActorM A O)) (action : A) :
    List O :=
  (busPublish busInit action).map fun r => r.1.runObservable action

/-- C1: for a join action with 0 entries, `ActorRdfJoin.run` returns the
empty bindings output (empty stream, `variables = []`, metadata
`totalItems = 0`); for exactly 1 entry it returns that entry verbatim.
Both cases hold for every subclass `getOutput`, which is therefore never
consulted on trivial actions. -/
theorem C1_run_trivial_entries (getOutput : JoinAction → QueryOutputBindings)
    (action : JoinAction) :
    (action.entries = [] →
      runJoin getOutput action =
        { type := "bindings", bindingsStream := [],
          metadata := some [("totalItems", MVal.num 0)], vars := [] })
    ∧ (∀ e, action.entries = [e] → runJoin getOutput action = e) := by
  constructor
  · intro h
    obtain ⟨es⟩ := action
    simp only at h
    subst h
    rfl
  · intro e h
    obtain ⟨es⟩ := action
    simp only at h
    subst h
    rfl

theorem C1_run_trivial_entries_witness :
    runJoin (fun _ => emptyJoinOutput) ⟨[]⟩ =
      { type := "bindings", bindingsStream := [],
        metadata := some [("totalItems", MVal.num 0)], vars := [] }
    ∧ runJoin (fun _ => emptyJoinOutput)
        ⟨[⟨"bindings", [], none, ["a"]⟩]⟩ =
      (⟨"bindings", [], none, ["a"]⟩ : QueryOutputBindings) :=
  ⟨(C1_run_trivial_entries (fun _ => emptyJoinOutput) ⟨[]⟩).1 rfl,
   (C1_run_trivial_entries (fun _ => emptyJoinOutput) _).2 _ rfl⟩

/-- C3: `ActorRdfJoin.join` on two bindings returns their union (left
bindings first; on shared variables both sides agree) exactly when they
are compatible, and `null` when some shared variable maps to unequal
terms; the merge error is caught internally, so the function is total. -/
theorem C3_join_union_or_null (a b : Bindings) (ha : keysNodup a)
    (hb : keysNodup b) :
    (compatB a b = true →
      ∃ m, join [a, b] = some m ∧
        ∀ k, alookup k m = (alookup k a).or (alookup k b))
    ∧ (compatB a b = false → join [a, b] = none) := by
  rw [join_pair]
  constructor
  · intro hc
    have hc2 : compatB b a = true := by rw [← compatB_symm ha hb]; exact hc
    have hsome : (joinMerge a b).isSome = true := by
      rw [joinMerge_isSome hb, hc2]
    obtain ⟨m, hm⟩ := Option.isSome_iff_exists.mp hsome
    exact ⟨m, hm, fun k => joinMerge_some_lookup hb hm k⟩
  · intro hc
    have hc2 : compatB b a = false := by rw [← compatB_symm ha hb]; exact hc
    have hns : (joinMerge a b).isSome = false := by
      rw [joinMerge_isSome hb, hc2]
    exact Option.not_isSome_iff_eq_none.mp (by simp [hns])

theorem C3_join_union_or_null_witness :
    (∃ m, join [[("x", Term.namedNode "i")],
                [("x", Term.namedNode "i"), ("y", Term.namedNode "j")]] = some m ∧
      ∀ k, alookup k m =
        (alookup k [("x", Term.namedNode "i")]).or
          (alookup k [("x", Term.namedNode "i"), ("y", Term.namedNode "j")]))
    ∧ join [[("x", Term.namedNode "i")], [("x", Term.namedNode "k")]] = none :=
  ⟨(C3_join_union_or_null _ _ (by decide) (by decide)).1 (by decide),
   (C3_join_union_or_null _ _ (by decide) (by decide)).2 (by decide)⟩

/-- C2: joining is commutative.  For the streams: the multiset of output
bindings (each bindings taken as its entry multiset, i.e. as a mapping) of
a nested-loop join of `[A, B]` equals that of `[B, A]`.  For the static
merge: `ActorRdfJoin.join(a, b)` succeeds exactly when
`ActorRdfJoin.join(b, a)` succeeds, and the two results map every variable
to the same term. -/
theorem C2_join_commutative :
    (∀ A B : List Bindings, (∀ x ∈ A, keysNodup x) → (∀ x ∈ B, keysNodup x) →
      Multiset.map bindingsMS (↑(nestedLoopJoin A B)) =
        Multiset.map bindingsMS (↑(nestedLoopJoin B A)))
    ∧ (∀ a b : Bindings, keysNodup a → keysNodup b →
      ((join [a, b]).isSome = (join [b, a]).isSome
        ∧ ∀ m m2, join [a, b] = some m → join [b, a] = some m2 →
            ∀ k, alookup k m = alookup k m2)) := by
  constructor
  · intro A B hA hB
    rw [nestedLoop_ms, nestedLoop_ms]
    have h1 : (A.map fun a => (B.map (pairMS a)).sum).sum =
        (A.map fun a => (B.map fun b => pairMS b a).sum).sum := by
      apply congrArg List.sum
      apply List.map_congr_left
      intro a hax
      apply congrArg List.sum
      apply List.map_congr_left
      intro b hbx
      exact pairMS_comm (hA a hax) (hB b hbx)
    rw [h1, listSum_comm]
  · intro a b ha hb
    rw [join_pair, join_pair]
    constructor
    · rw [joinMerge_isSome hb, joinMerge_isSome ha, compatB_symm hb ha]
    · intro m m2 h1 h2 k
      rw [joinMerge_some_lookup hb h1 k, joinMerge_some_lookup ha h2 k]
      have hcompat : compatB b a = true := by
        have hx := joinMerge_isSome (m := a) hb
        rw [h1] at hx
        simpa using hx.symm
      have hp := (compatB_iff hb).mp hcompat
      cases hka : alookup k a with
      | some t =>
        cases hkb : alookup k b with
        | some u => simp only [Option.or]; exact congrArg some (hp k u t hkb hka).symm
        | none => simp [Option.or]
      | none =>
        cases hkb : alookup k b <;> simp [Option.or]

theorem C2_join_commutative_witness :
    (Multiset.map bindingsMS
        (↑(nestedLoopJoin [[("x", Term.namedNode "i")]]
                          [[("y", Term.namedNode "j")]])) =
      Multiset.map bindingsMS
        (↑(nestedLoopJoin [[("y", Term.namedNode "j")]]
                          [[("x", Term.namedNode "i")]])))
    ∧ ((join [[("x", Term.namedNode "i")], [("y", Term.namedNode "j")]]).isSome =
        (join [[("y", Term.namedNode "j")], [("x", Term.namedNode "i")]]).isSome) :=
  ⟨C2_join_commutative.1 _ _ (by decide) (by decide),
   (C2_join_commutative.2 _ _ (by decide) (by decide)).1⟩

/-- The JS value of the product `1 * t1 * t2 * ...` over extended naturals:
`NaN` as soon as the factors mix `Infinity` and `0`, and the `ℕ∞` product
otherwise.  This is the characterization the amended C4 states. -/
def jsProd (ts : List ℕ∞) : MVal :=
  if ⊤ ∈ ts ∧ 0 ∈ ts then MVal.nan else MVal.num ts.prod

theorem mulMV_num_num (a t : ℕ∞) :
    mulMV (MVal.num a) (MVal.num t) =
      if (a = ⊤ ∧ t = 0) ∨ (a = 0 ∧ t = ⊤) then MVal.nan
      else MVal.num (a * t) := by
  simp only [mulMV]

theorem foldl_mulMV_nan (ts : List ℕ∞) :
    ts.foldl (fun a t => mulMV a (MVal.num t)) MVal.nan = MVal.nan := by
  induction ts with
  | nil => rfl
  | cons t ts ih => simpa [mulMV] using ih

theorem foldl_mulMV_safe (ts : List ℕ∞) :
    ∀ acc : ℕ∞, ¬(⊤ ∈ ts ∧ 0 ∈ ts) → ¬(acc = ⊤ ∧ 0 ∈ ts) →
      ¬(acc = 0 ∧ ⊤ ∈ ts) →
      ts.foldl (fun a t => mulMV a (MVal.num t)) (MVal.num acc) =
        MVal.num (acc * ts.prod) := by
  induction ts with
  | nil => intro acc _ _ _; simp
  | cons t ts ih =>
    intro acc h1 h2 h3
    rw [List.foldl_cons, mulMV_num_num]
    have hstep : ¬((acc = ⊤ ∧ t = 0) ∨ (acc = 0 ∧ t = ⊤)) := by
      rintro (⟨ha, ht⟩ | ⟨ha, ht⟩)
      · exact h2 ⟨ha, by simp [← ht]⟩
      · exact h3 ⟨ha, by simp [← ht]⟩
    rw [if_neg hstep]
    have h1b : ¬(⊤ ∈ ts ∧ 0 ∈ ts) := fun hx =>
      h1 ⟨List.mem_cons_of_mem t hx.1, List.mem_cons_of_mem t hx.2⟩
    have h2b : ¬(acc * t = ⊤ ∧ 0 ∈ ts) := by
      rintro ⟨hmul, h0⟩
      rcases WithTop.mul_eq_top_iff.mp hmul with ⟨hane, htt⟩ | ⟨hat, htne⟩
      · exact h1 ⟨by simp [← htt], List.mem_cons_of_mem t h0⟩
      · exact h2 ⟨hat, List.mem_cons_of_mem t h0⟩
    have h3b : ¬(acc * t = 0 ∧ ⊤ ∈ ts) := by
      rintro ⟨hmul, htop⟩
      rcases mul_eq_zero.mp hmul with ha | ht
      · exact h3 ⟨ha, List.mem_cons_of_mem t htop⟩
      · exact h1 ⟨List.mem_cons_of_mem t htop, by simp [← ht]⟩
    rw [ih (acc * t) h1b h2b h3b, List.prod_cons, mul_assoc]

theorem foldl_mulMV_mixed (ts : List ℕ∞) :
    ∀ acc : ℕ∞,
      ((⊤ ∈ ts ∧ 0 ∈ ts) ∨ (acc = ⊤ ∧ 0 ∈ ts) ∨ (acc = 0 ∧ ⊤ ∈ ts)) →
      ts.foldl (fun a t => mulMV a (MVal.num t)) (MVal.num acc) = MVal.nan := by
  induction ts with
  | nil => intro acc h; simp at h
  | cons t ts ih =>
    intro acc h
    rw [List.foldl_cons, mulMV_num_num]
    by_cases hstep : (acc = ⊤ ∧ t = 0) ∨ (acc = 0 ∧ t = ⊤)
    · rw [if_pos hstep]
      exact foldl_mulMV_nan ts
    · rw [if_neg hstep]
      apply ih (acc * t)
      rcases h with ⟨htop, h0⟩ | ⟨ha, h0⟩ | ⟨ha, htop⟩
      · rcases List.mem_cons.mp htop with ht | hts
        · rcases List.mem_cons.mp h0 with h0t | h0ts
          · rw [← ht] at h0t
            simp at h0t
          · have hane : acc ≠ 0 := fun he => hstep (Or.inr ⟨he, ht.symm⟩)
            refine Or.inr (Or.inl ⟨?_, h0ts⟩)
            rw [← ht, WithTop.mul_top hane]
        · rcases List.mem_cons.mp h0 with h0t | h0ts
          · refine Or.inr (Or.inr ⟨?_, hts⟩)
            rw [← h0t, mul_zero]
          · exact Or.inl ⟨hts, h0ts⟩
      · rcases List.mem_cons.mp h0 with h0t | h0ts
        · exact absurd (Or.inl ⟨ha, h0t.symm⟩) hstep
        · have htne : t ≠ 0 := fun he => hstep (Or.inl ⟨ha, he⟩)
          refine Or.inr (Or.inl ⟨?_, h0ts⟩)
          rw [ha, WithTop.top_mul htne]
      · rcases List.mem_cons.mp htop with ht | hts
        · exact absurd (Or.inr ⟨ha, ht.symm⟩) hstep
        · refine Or.inr (Or.inr ⟨?_, hts⟩)
          rw [ha, zero_mul]

theorem tiProd_eq_jsProd (action : JoinAction) (ts : List ℕ∞)
    (h : List.Forall₂ (fun (e : QueryOutputBindings) (t : ℕ∞) =>
        entryTI e = MVal.num t) action.entries ts) :
    tiProd action = jsProd ts := by
  obtain ⟨es⟩ := action
  simp only at h
  unfold tiProd
  simp only
  have hfold : ∀ acc : MVal,
      es.foldl (fun a e => mulMV a (entryTI e)) acc =
        ts.foldl (fun a t => mulMV a (MVal.num t)) acc := by
    induction h with
    | nil => intro acc; rfl
    | @cons e t es2 ts2 het hrest ih =>
      intro acc
      rw [List.foldl_cons, List.foldl_cons, het]
      exact ih _
  rw [hfold]
  unfold jsProd
  by_cases hmix : ⊤ ∈ ts ∧ 0 ∈ ts
  · rw [if_pos hmix]
    exact foldl_mulMV_mixed ts 1 (Or.inl hmix)
  · rw [if_neg hmix]
    have hsafe := foldl_mulMV_safe ts 1 hmix
      (by rintro ⟨h1, _⟩; exact (by simp : (1 : ℕ∞) ≠ ⊤) h1)
      (by rintro ⟨h1, _⟩; exact one_ne_zero h1)
    rw [hsafe, one_mul]

theorem iteratorsHaveMetadata_of_forall₂ (action : JoinAction) (ts : List ℕ∞)
    (h : List.Forall₂ (fun (e : QueryOutputBindings) (t : ℕ∞) =>
        ∃ md, e.metadata = some md ∧
          alookup "totalItems" md = some (MVal.num t)) action.entries ts) :
    iteratorsHaveMetadata action "totalItems" = true := by
  obtain ⟨es⟩ := action
  simp only at h
  unfold iteratorsHaveMetadata
  simp only
  induction h with
  | nil => rfl
  | @cons e t es2 ts2 het hrest ih =>
    obtain ⟨md, hmd, hti⟩ := het
    rw [List.all_cons, ih, hmd]
    simp [hti]

theorem entryTI_of_metadata {e : QueryOutputBindings} {md : Metadata}
    {t : ℕ∞} (hmd : e.metadata = some md)
    (hti : alookup "totalItems" md = some (MVal.num t)) :
    entryTI e = MVal.num t := by
  simp [entryTI, hmd, lookupVal, hti]

/-- C4 (amended): for a join action with at least 2 entries whose metadata
all resolve with a numeric `totalItems` (finite or `Infinity`), the
metadata of the output of `ActorRdfJoin.run` reports `totalItems` equal to
the JS product of the entries' totals — the `ℕ∞` product, except that a mix
of `Infinity` and `0` among the totals yields `NaN` — unless the subclass
output metadata already contains a `totalItems` key, in which case that
value is kept unchanged. -/
theorem C4_run_totalItems_product (getOutput : JoinAction → QueryOutputBindings)
    (action : JoinAction) (ts : List ℕ∞)
    (h2 : 2 ≤ action.entries.length)
    (hts : List.Forall₂ (fun (e : QueryOutputBindings) (t : ℕ∞) =>
        ∃ md, e.metadata = some md ∧
          alookup "totalItems" md = some (MVal.num t)) action.entries ts) :
    ∃ md, (runJoin getOutput action).metadata = some md ∧
      alookup "totalItems" md = some (
        match (getOutput action).metadata with
        | some omd =>
          match alookup "totalItems" omd with
          | some v => v
          | none => jsProd ts
        | none => jsProd ts) := by
  have hhm := iteratorsHaveMetadata_of_forall₂ action ts hts
  have hforall2 : List.Forall₂ (fun (e : QueryOutputBindings) (t : ℕ∞) =>
      entryTI e = MVal.num t) action.entries ts := by
    refine List.Forall₂.imp ?_ hts
    intro e t het
    obtain ⟨md, hmd, hti⟩ := het
    exact entryTI_of_metadata hmd hti
  have hprod : tiProd action = jsProd ts :=
    tiProd_eq_jsProd action ts hforall2
  obtain ⟨es⟩ := action
  rcases es with _ | ⟨e1, _ | ⟨e2, rest⟩⟩
  · simp at h2
  · simp at h2
  · have hrun : runJoin getOutput ⟨e1 :: e2 :: rest⟩ =
        wrapMetadata (tiProd ⟨e1 :: e2 :: rest⟩)
          (getOutput ⟨e1 :: e2 :: rest⟩) := by
      simp only [runJoin]
      rw [if_pos hhm]
    rw [hrun, hprod]
    cases hmd : (getOutput ⟨e1 :: e2 :: rest⟩).metadata with
    | none =>
      refine ⟨[("totalItems", jsProd ts)], ?_, ?_⟩
      · simp [wrapMetadata, hmd]
      · simp [hmd, alookup]
    | some omd =>
      cases hti : alookup "totalItems" omd with
      | some v =>
        refine ⟨omd, ?_, ?_⟩
        · simp [wrapMetadata, hmd, hti]
        · simp [hmd, hti]
      | none =>
        refine ⟨upsert omd "totalItems" (jsProd ts), ?_, ?_⟩
        · simp [wrapMetadata, hmd, hti]
        · rw [alookup_upsert_self]
          simp [hmd, hti]

/-- C4 counterexample: with entry totals `0` and `Infinity` and a subclass
output carrying no metadata of its own, `ActorRdfJoin.run` reports
`totalItems = NaN` (the JS product `0 * Infinity`), which is not the
product of the entries' totals under any numeric reading.  The claim as
stated — over the full range the spec gives `totalItems`, a non-negative
integer or `+∞` — is therefore false. -/
theorem C4_counterexample :
    (runJoin (fun _ => ⟨"bindings", [], none, []⟩)
      ⟨[⟨"bindings", [], some [("totalItems", MVal.num 0)], []⟩,
        ⟨"bindings", [], some [("totalItems", MVal.num ⊤)], []⟩]⟩).metadata =
      some [("totalItems", MVal.nan)]
    ∧ MVal.nan ≠ MVal.num 0 ∧ MVal.nan ≠ MVal.num ⊤ := by
  refine ⟨by decide, by decide, by decide⟩

theorem C4_run_totalItems_product_witness :
    (∃ md,
      (runJoin (fun _ => ⟨"bindings", [], none, []⟩)
        ⟨[⟨"bindings", [], some [("totalItems", MVal.num 2)], []⟩,
          ⟨"bindings", [], some [("totalItems", MVal.num 3)], []⟩]⟩).metadata =
        some md ∧
      alookup "totalItems" md = some (MVal.num 6))
    ∧ (∃ md,
      (runJoin (fun _ => ⟨"bindings", [], none, []⟩)
        ⟨[⟨"bindings", [], some [("totalItems", MVal.num 2)], []⟩,
          ⟨"bindings", [], some [("totalItems", MVal.num ⊤)], []⟩]⟩).metadata =
        some md ∧
      alookup "totalItems" md = some (MVal.num ⊤)) := by
  constructor
  · have h := C4_run_totalItems_product (fun _ => ⟨"bindings", [], none, []⟩)
      ⟨[⟨"bindings", [], some [("totalItems", MVal.num 2)], []⟩,
        ⟨"bindings", [], some [("totalItems", MVal.num 3)], []⟩]⟩
      [2, 3] (by decide)
      (List.Forall₂.cons ⟨_, rfl, rfl⟩
        (List.Forall₂.cons ⟨_, rfl, rfl⟩ List.Forall₂.nil))
    obtain ⟨md, h1, h2⟩ := h
    refine ⟨md, h1, ?_⟩
    rw [h2]
    decide
  · have h := C4_run_totalItems_product (fun _ => ⟨"bindings", [], none, []⟩)
      ⟨[⟨"bindings", [], some [("totalItems", MVal.num 2)], []⟩,
        ⟨"bindings", [], some [("totalItems", MVal.num ⊤)], []⟩]⟩
      [2, ⊤] (by decide)
      (List.Forall₂.cons ⟨_, rfl, rfl⟩
        (List.Forall₂.cons ⟨_, rfl, rfl⟩ List.Forall₂.nil))
    obtain ⟨md, h1, h2⟩ := h
    refine ⟨md, h1, ?_⟩
    rw [h2]
    decide
/-- C5: over an input whose metadata reports a finite total `T`, the Slice
actor reports `totalItems = max(0, min(length, T - start))` when a length
is present and `max(0, T - start)` otherwise, and every other metadata key
passes through unchanged. -/
theorem C5_sliceMetadata_totalItems (md : Metadata) (s T : ℕ)
    (hT : alookup "totalItems" md = some (MVal.num (T : ℕ∞))) :
    (∀ L : ℕ, alookup "totalItems" (sliceMetadata md s (some L)) =
      some (MVal.num ((Int.toNat (max 0 (min (L : ℤ) ((T : ℤ) - (s : ℤ)))) : ℕ) : ℕ∞)))
    ∧ (alookup "totalItems" (sliceMetadata md s none) =
      some (MVal.num ((Int.toNat (max 0 ((T : ℤ) - (s : ℤ))) : ℕ) : ℕ∞)))
    ∧ (∀ (L : Option ℕ) (k : String), k ≠ "totalItems" →
      alookup k (sliceMetadata md s L) = alookup k md) := by
  have ht : lookupVal md "totalItems" = MVal.num (T : ℕ∞) := by
    rw [lookupVal, hT]
    rfl
  have hne : ¬((T : ℕ∞) = ⊤) := WithTop.coe_ne_top
  refine ⟨?_, ?_, ?_⟩
  · intro L
    have hred : sliceMetadata md s (some L) =
        upsert md "totalItems" (MVal.num ((min (T - s) L : ℕ) : ℕ∞)) := by
      simp only [sliceMetadata, ht, if_neg hne, ENat.toNat_coe]
    rw [hred, alookup_upsert_self]
    have : min (T - s) L = Int.toNat (max 0 (min (L : ℤ) ((T : ℤ) - (s : ℤ)))) := by
      omega
    rw [this]
  · have hred : sliceMetadata md s none =
        upsert md "totalItems" (MVal.num ((T - s : ℕ) : ℕ∞)) := by
      simp only [sliceMetadata, ht, if_neg hne, ENat.toNat_coe]
    rw [hred, alookup_upsert_self]
    have : T - s = Int.toNat (max 0 ((T : ℤ) - (s : ℤ))) := by
      omega
    rw [this]
  · intro L k hk
    unfold sliceMetadata
    exact alookup_upsert_ne md _ hk

theorem C5_sliceMetadata_totalItems_witness :
    (alookup "totalItems"
        (sliceMetadata [("totalItems", MVal.num 5), ("pageSize", MVal.num 9)] 2 (some 2)) =
      some (MVal.num 2))
    ∧ (alookup "totalItems"
        (sliceMetadata [("totalItems", MVal.num 5), ("pageSize", MVal.num 9)] 2 none) =
      some (MVal.num 3))
    ∧ (alookup "pageSize"
        (sliceMetadata [("totalItems", MVal.num 5), ("pageSize", MVal.num 9)] 2 (some 2)) =
      alookup "pageSize" [("totalItems", MVal.num 5), ("pageSize", MVal.num 9)]) := by
  have h := C5_sliceMetadata_totalItems
    [("totalItems", MVal.num 5), ("pageSize", MVal.num 9)] 2 5 (by decide)
  refine ⟨?_, ?_, h.2.2 (some 2) "pageSize" (by decide)⟩
  · have h1 := h.1 2
    rw [h1]
    decide
  · have h2 := h.2.1
    rw [h2]
    decide

/-- C6: the Slice actor output stream drops the first `start` elements and
then takes at most `length` elements (all remaining ones when no length is
present), preserving order; in particular start=1, length=2 over a
4-element input yields exactly the 2nd and 3rd elements. -/
theorem C6_sliceStream_drop_take :
    (∀ (l : List Bindings) (s n : ℕ), sliceStream l s (some n) = (l.drop s).take n)
    ∧ (∀ (l : List Bindings) (s : ℕ), sliceStream l s none = l.drop s)
    ∧ (∀ b1 b2 b3 b4 : Bindings, sliceStream [b1, b2, b3, b4] 1 (some 2) = [b2, b3]) := by
  have hgen : ∀ (l : List Bindings) (s n : ℕ),
      sliceStream l s (some n) = (l.drop s).take n := by
    intro l s n
    simp only [sliceStream]
    congr 1
    omega
  refine ⟨hgen, fun l s => rfl, ?_⟩
  intro b1 b2 b3 b4
  rw [hgen]
  rfl

/-- C7 counterexample: an actor declaring a lower entry limit of 3
(`limitEntries = 3`, `limitEntriesMin`) still passes `test` on a 1-entry
action, returning 0 iterations instead of throwing — the `length <= 1`
early return precedes the limit check, so the claim fails for actions
with 0 or 1 entries. -/
theorem C7_counterexample :
    testJoin 3 true (fun _ => 0) ⟨[emptyJoinOutput]⟩ = .ok 0
    ∧ (((⟨[emptyJoinOutput]⟩ : JoinAction).entries.length : ℕ∞) < 3) := by
  constructor
  · rfl
  · show ((1 : ℕ) : ℕ∞) < 3
    exact_mod_cast (by norm_num : (1 : ℕ) < 3)

/-- C7 (amended): for a join actor with a declared entry-count limit, every
join action with at least 2 entries whose entry count violates the limit
is rejected at `test` time (the test throws); actions with 0 or 1 entries
instead always pass `test` with 0 iterations, before the limit check. -/
theorem C7_test_limit (lE : ℕ∞) (lEmin : Bool) (g : JoinAction → ℕ∞)
    (action : JoinAction) :
    (2 ≤ action.entries.length →
      (if lEmin = true then ((action.entries.length : ℕ∞) < lE)
       else (lE < (action.entries.length : ℕ∞))) →
      testJoin lE lEmin g action = .error "entry limit violated")
    ∧ (action.entries.length ≤ 1 → testJoin lE lEmin g action = .ok 0) := by
  constructor
  · intro h2 hviol
    unfold testJoin
    rw [if_neg (by omega), if_pos hviol]
  · intro h1
    unfold testJoin
    rw [if_pos h1]

theorem C7_test_limit_witness :
    testJoin 1 false (fun _ => 0)
      ⟨[emptyJoinOutput, emptyJoinOutput]⟩ = .error "entry limit violated"
    ∧ testJoin 1 false (fun _ => 0) ⟨[emptyJoinOutput]⟩ = .ok 0 :=
  ⟨(C7_test_limit 1 false (fun _ => 0) ⟨[emptyJoinOutput, emptyJoinOutput]⟩).1
      (by decide)
      (by show (1 : ℕ∞) < ((2 : ℕ) : ℕ∞); exact_mod_cast (by norm_num : (1 : ℕ) < 2)),
   (C7_test_limit 1 false (fun _ => 0) ⟨[emptyJoinOutput]⟩).2 (by decide)⟩

/-- The action refuting C8 as stated: the context carries an auth value
that is present but empty. -/
def httpAuthEmptyAction : HttpActionM :=
  { input := .inl "http://example.org/page"
    init := none
    context := some { includeCredentials := false, auth := some "" } }

/-- C8 counterexample: the context auth value `""` is present, yet
`ActorHttpNative.run` does not copy it to the request (the source tests
`context.get(KEY_CONTEXT_AUTH)` for truthiness and the empty string is
falsy in JS), refuting "the context auth value, when present, is
copied". -/
theorem C8_counterexample :
    httpAuthEmptyAction.context.map HttpContextM.auth = some (some "")
    ∧ (buildOptions "agent" httpAuthEmptyAction).auth = none := by
  constructor
  · rfl
  · rfl

/-- C8 (amended): for every HTTP action, the outgoing request carries a
user-agent header, the default user agent being appended exactly when the
caller supplied none; `withCredentials` is set iff the context carries a
true include-credentials flag; and the context auth value is copied into
the request auth field whenever it is present and non-empty. -/
theorem C8_http_options (ua : String) (action : HttpActionM) :
    ((callerHeaders action).has "user-agent" = true →
      (buildOptions ua action).headers = callerHeaders action)
    ∧ ((callerHeaders action).has "user-agent" = false →
      (buildOptions ua action).headers = (callerHeaders action).append "user-agent" ua)
    ∧ ((buildOptions ua action).headers.has "user-agent" = true)
    ∧ ((buildOptions ua action).withCredentials = true ↔
      ∃ c, action.context = some c ∧ c.includeCredentials = true)
    ∧ (∀ c a, action.context = some c → c.auth = some a → a ≠ "" →
      (buildOptions ua action).auth = some a) := by
  have happend : ∀ (h : HeadersM) (k v : String), (h.append k v).has k = true := by
    intro h k v
    unfold HeadersM.has HeadersM.append
    simp only [alookup_append]
    cases hx : alookup k h.entries
    · simp [alookup]
    · simp [alookup]
  refine ⟨?_, ?_, ?_, ?_, ?_⟩
  · intro h
    simp [buildOptions, h]
  · intro h
    simp [buildOptions, h]
  · by_cases h : (callerHeaders action).has "user-agent"
    · simp [buildOptions, h]
    · simp only [Bool.not_eq_true] at h
      simp [buildOptions, h, happend]
  · cases hctx : action.context with
    | none =>
      simp [buildOptions, hctx]
    | some c =>
      simp only [buildOptions, hctx]
      constructor
      · intro h
        exact ⟨c, rfl, h⟩
      · rintro ⟨c2, hc2, hic⟩
        cases hc2
        exact hic
  · intro c a hctx hauth hne
    simp [buildOptions, hctx, hauth, hne]

theorem C8_http_options_witness :
    ((buildOptions "ua0"
        { input := .inr ⟨"http://example.org/", ⟨[("user-agent", "me")]⟩⟩,
          init := none,
          context := some { includeCredentials := true, auth := some "u:p" } }).headers =
      callerHeaders
        { input := .inr ⟨"http://example.org/", ⟨[("user-agent", "me")]⟩⟩,
          init := none,
          context := some { includeCredentials := true, auth := some "u:p" } })
    ∧ ((buildOptions "ua0"
        { input := .inl "http://example.org/", init := none, context := none }).headers =
      (callerHeaders
        { input := .inl "http://example.org/", init := none, context := none }).append
          "user-agent" "ua0")
    ∧ ((buildOptions "ua0"
        { input := .inr ⟨"http://example.org/", ⟨[("user-agent", "me")]⟩⟩,
          init := none,
          context := some { includeCredentials := true, auth := some "u:p" } }).auth =
      some "u:p") :=
  ⟨(C8_http_options "ua0" _).1 (by decide),
   (C8_http_options "ua0" _).2.1 (by decide),
   (C8_http_options "ua0" _).2.2.2.2
     { includeCredentials := true, auth := some "u:p" } "u:p" rfl rfl (by decide)⟩

/-- C9: `Runner.run` runs `runObservable` on every actor that replied on
the init bus, in bus order, without selecting a winner by test metric and
without filtering out actors whose test failed, and resolves with the
list of all outputs. -/
theorem C9_runner_runs_all {A O : Type _} (busInit : List (InitActorM A O))
    (action : A) :
    runnerRun busInit action = busInit.map (fun a => a.runObservable action)
    ∧ (runnerRun busInit action).length = busInit.length := by
  constructor
  · simp [runnerRun, busPublish]
  · simp [runnerRun, busPublish]

/-- C10: the resolved output of `ActorHttpNative.run` has `ok = true` iff
the status code is strictly below 300, and its `url` is the
content-location header value when that header is present, the response
URL otherwise. -/
theorem C10_response_fields (u : String) (r : HttpResponseM) :
    ((responseToOutput u r).ok = true ↔ r.statusCode < 300)
    ∧ (r.headers.has "content-location" = true →
      ∃ v, r.headers.get "content-location" = some v ∧
        (responseToOutput u r).url = v)
    ∧ (r.headers.has "content-location" = false →
      (responseToOutput u r).url = r.responseUrl) := by
  refine ⟨by simp [responseToOutput], ?_, ?_⟩
  · intro h
    unfold HeadersM.has at h
    obtain ⟨v, hv⟩ := Option.isSome_iff_exists.mp h
    refine ⟨v, hv, ?_⟩
    simp [responseToOutput, HeadersM.get, hv]
  · intro h
    unfold HeadersM.has at h
    have hn : r.headers.get "content-location" = none := by
      unfold HeadersM.get
      cases hx : alookup "content-location" r.headers.entries
      · rfl
      · rw [hx] at h; simp at h
    simp [responseToOutput, hn]

theorem C10_response_fields_witness :
    (∃ v, (⟨[("content-location", "http://example.org/doc")]⟩ : HeadersM).get
        "content-location" = some v ∧
      (responseToOutput "http://example.org/"
        ⟨200, "http://example.org/", ⟨[("content-location", "http://example.org/doc")]⟩⟩).url = v)
    ∧ (responseToOutput "http://example.org/"
        ⟨301, "http://example.org/else", ⟨[]⟩⟩).url = "http://example.org/else"
    ∧ ((responseToOutput "http://example.org/"
        ⟨200, "http://example.org/", ⟨[]⟩⟩).ok = true) :=
  ⟨(C10_response_fields "http://example.org/"
      ⟨200, "http://example.org/", ⟨[("content-location", "http://example.org/doc")]⟩⟩).2.1
      (by decide),
   (C10_response_fields "http://example.org/"
      ⟨301, "http://example.org/else", ⟨[]⟩⟩).2.2 (by decide),
   (C10_response_fields "http://example.org/"
      ⟨200, "http://example.org/", ⟨[]⟩⟩).1.mpr (by norm_num)⟩

end Comunica
